import Mathlib

/-!
Verification of the tex-slasher asset extraction tool (src/main.rs).

The development shallowly embeds the program:
* `fromPos`, `formatPos`, `parsePos` model `AtlasPos::from_pos`, the
  `fmt::Debug` impl and the `FromStr` impl.  Strings handled by the parser
  are modelled as lists of bytes (`List Nat`), matching `s.as_bytes()`.
* `zipsFind` models `Zips::find`; `btreeOfList` models building the
  `BTreeMap`-backed `Folders` table from the entries of the toml file.
* `processAtlas` models `process_atlas`; images are width/height plus a
  pixel function, and the out-of-bounds panic of the image library's
  sub-view/pixel access is modelled as an `Except` error.
* `resDir`, `namespaceDir`, `bannerDest`, ... model the output-path
  computation in `main`, with paths as lists of components.
-/

set_option maxRecDepth 100000

/-- Model of `AtlasPos::from_pos(x, y) = (y << 4) | x` on `u8`:
the shift keeps only the low byte, then bitwise-or with `x`.
Arguments are reduced mod 256 to reflect the `u8` argument type. -/
def fromPos (x y : Nat) : Nat := (y % 256 * 16 % 256) ||| (x % 256)

/-- Lowercase hex digit byte for a nibble, as produced by `{:x}`. -/
def hexDigitChar (n : Nat) : Nat := if n < 10 then 48 + n else 87 + n

/-- Model of the `fmt::Debug` impl for `AtlasPos`: writes the high nibble
(`self.0 >> 4`, the row) then the low nibble (`self.0 & 0xf`, the column),
each as a single lowercase hex digit byte. -/
def formatPos (v : Nat) : List Nat :=
  [hexDigitChar ((v % 256) >>> 4), hexDigitChar ((v % 256) &&& 15)]

/-- Model of `u8::is_ascii_hexdigit` on a byte. -/
def isHexDigitByte (b : Nat) : Bool :=
  decide (48 ≤ b ∧ b ≤ 57) || decide (65 ≤ b ∧ b ≤ 70) || decide (97 ≤ b ∧ b ≤ 102)

/-- Value of a hex digit byte (as used by `u8::from_str_radix(s, 16)`). -/
def hexVal (b : Nat) : Nat := if b ≤ 57 then b - 48 else if b ≤ 70 then b - 55 else b - 87

/-- Errors of `AtlasPos::from_str` (`ParseError` in the source). -/
inductive ParseErr where
  | notHexDigits : ParseErr
  | wrongSize : Nat → ParseErr
deriving DecidableEq

instance : DecidableEq (Except ParseErr Nat)
  | .error e, .error f =>
    if h : e = f then isTrue (by rw [h]) else isFalse (fun hh => h (Except.error.inj hh))
  | .error _, .ok _ => isFalse (fun hh => Except.noConfusion hh)
  | .ok _, .error _ => isFalse (fun hh => Except.noConfusion hh)
  | .ok a, .ok b =>
    if h : a = b then isTrue (by rw [h]) else isFalse (fun hh => h (Except.ok.inj hh))

/-- Model of the `FromStr` impl for `AtlasPos` over the byte slice of the
input: a two-byte slice of hex digits parses via radix-16 (which for two hex
digits always fits a `u8`), any other two-byte slice is `NotHexDigits`, and
any other length is `WrongSize(len)`. -/
def parsePos (s : List Nat) : Except ParseErr Nat :=
  match s with
  | [a, b] =>
      if isHexDigitByte a && isHexDigitByte b then
        .ok (16 * hexVal a + hexVal b)
      else
        .error .notHexDigits
  | bytes => .error (.wrongSize bytes.length)

theorem fromPos_eq_of_lt : ∀ x < 16, ∀ y < 16, fromPos x y = 16 * y + x := by decide

theorem hexVal_lt_of_hex {b : Nat} (h : isHexDigitByte b = true) : hexVal b < 16 := by
  simp only [isHexDigitByte, Bool.or_eq_true, decide_eq_true_eq] at h
  simp only [hexVal]
  split <;> rename_i h1
  · omega
  · split <;> omega

theorem hexDigitChar_hexVal {b : Nat}
    (h : (48 ≤ b ∧ b ≤ 57) ∨ (97 ≤ b ∧ b ≤ 102)) : hexDigitChar (hexVal b) = b := by
  rcases h with h | h
  · have hv : hexVal b = b - 48 := by simp only [hexVal]; rw [if_pos (by omega)]
    simp only [hv, hexDigitChar]; rw [if_pos (by omega)]; omega
  · have hv : hexVal b = b - 87 := by
      simp only [hexVal]; rw [if_neg (by omega), if_neg (by omega)]
    simp only [hv, hexDigitChar]; rw [if_neg (by omega)]; omega

/-- C3: for every column and row in `[0,16)`, parsing the formatted text of
`from_pos(column, row)` yields back exactly that coordinate value. -/
theorem parse_format_fromPos_roundtrip (x y : Nat) (hx : x < 16) (hy : y < 16) :
    parsePos (formatPos (fromPos x y)) = .ok (fromPos x y) := by
  have h : ∀ x < 16, ∀ y < 16, parsePos (formatPos (fromPos x y)) = .ok (fromPos x y) := by
    decide
  exact h x hx y hy

theorem parse_format_fromPos_roundtrip_witness :
    3 < 16 ∧ 7 < 16 ∧ parsePos (formatPos (fromPos 3 7)) = .ok (fromPos 3 7) :=
  ⟨by decide, by decide, parse_format_fromPos_roundtrip 3 7 (by decide) (by decide)⟩

/-- C6: parse fails with `WrongSize` (reporting the byte length) whenever the
input length is not 2; on two-byte inputs it fails with `NotHexDigits` when
either byte is not a hex digit and otherwise succeeds, reading the first digit
as the row and the second as the column. -/
theorem parsePos_error_cases (s : List Nat) :
    (s.length ≠ 2 → parsePos s = .error (.wrongSize s.length)) ∧
    (∀ a b, s = [a, b] →
      ((isHexDigitByte a = false ∨ isHexDigitByte b = false) →
        parsePos s = .error .notHexDigits) ∧
      (isHexDigitByte a = true → isHexDigitByte b = true →
        parsePos s = .ok (fromPos (hexVal b) (hexVal a)))) := by
  constructor
  · intro hlen
    match s with
    | [] => rfl
    | [a] => rfl
    | [a, b] => simp at hlen
    | a :: b :: c :: t => rfl
  · rintro a b rfl
    constructor
    · intro h
      simp only [parsePos]
      rcases h with h | h <;> simp [h]
    · intro ha hb
      simp only [parsePos, ha, hb, Bool.and_self, if_pos]
      have hva := hexVal_lt_of_hex ha
      have hvb := hexVal_lt_of_hex hb
      rw [fromPos_eq_of_lt _ hvb _ hva]

theorem parsePos_error_cases_witness :
    ([49, 50, 51] : List Nat).length ≠ 2 ∧
    parsePos [49, 50, 51] = .error (.wrongSize 3) :=
  ⟨by decide, (parsePos_error_cases [49, 50, 51]).1 (by decide)⟩

theorem formatPos_eq (v : Nat) :
    formatPos v = [hexDigitChar (v % 256 / 16), hexDigitChar (v % 16)] := by
  have h1 : (v % 256) >>> 4 = v % 256 / 16 := by
    rw [Nat.shiftRight_eq_div_pow]
  have h2 : (v % 256) &&& 15 = v % 16 := by
    have h := Nat.and_pow_two_sub_one_eq_mod (v % 256) 4
    norm_num at h
    exact h
  rw [formatPos, h1, h2]

theorem hexDigitChar_range {n : Nat} (h : n < 16) :
    (48 ≤ hexDigitChar n ∧ hexDigitChar n ≤ 57) ∨
    (97 ≤ hexDigitChar n ∧ hexDigitChar n ≤ 102) := by
  simp only [hexDigitChar]; split <;> omega

theorem isHexDigitByte_of_lower {a : Nat}
    (h : (48 ≤ a ∧ a ≤ 57) ∨ (97 ≤ a ∧ a ≤ 102)) : isHexDigitByte a = true := by
  simp only [isHexDigitByte, Bool.or_eq_true, decide_eq_true_eq]
  omega

/-- C7 counterexample: parse accepts the uppercase input `"0A"` (bytes
`[48, 65]`), but formatting the parsed value yields `"0a"` (bytes `[48, 97]`),
not the original string, so format is not a left inverse of parse on every
accepted input. -/
theorem parse_uppercase_cex :
    parsePos [48, 65] = .ok 10 ∧ formatPos 10 = [48, 97] ∧
    ([48, 97] : List Nat) ≠ [48, 65] := by decide

/-- C7 amended: format always emits exactly two lowercase hex digit bytes, row
digit then column digit; and for every accepted input whose digits are
lowercase (digits or lowercase letters), formatting the parsed coordinate
yields back that exact string. -/
theorem formatPos_lowercase_inverse :
    (∀ v : Nat, (formatPos v).length = 2 ∧
      ∀ c ∈ formatPos v, (48 ≤ c ∧ c ≤ 57) ∨ (97 ≤ c ∧ c ≤ 102)) ∧
    (∀ a b v : Nat,
      ((48 ≤ a ∧ a ≤ 57) ∨ (97 ≤ a ∧ a ≤ 102)) →
      ((48 ≤ b ∧ b ≤ 57) ∨ (97 ≤ b ∧ b ≤ 102)) →
      parsePos [a, b] = .ok v → formatPos v = [a, b]) := by
  constructor
  · intro v
    refine ⟨rfl, ?_⟩
    intro c hc
    have hhi : (v % 256) >>> 4 < 16 := by
      rw [Nat.shiftRight_eq_div_pow]
      have : v % 256 < 256 := Nat.mod_lt _ (by omega)
      omega
    have hlo : (v % 256) &&& 15 < 16 :=
      Nat.lt_succ_of_le (Nat.and_le_right)
    simp only [formatPos, List.mem_cons, List.not_mem_nil, or_false] at hc
    rcases hc with rfl | rfl
    · exact hexDigitChar_range hhi
    · exact hexDigitChar_range hlo
  · intro a b v ha hb hp
    have hhexa := isHexDigitByte_of_lower ha
    have hhexb := isHexDigitByte_of_lower hb
    simp only [parsePos, hhexa, hhexb, Bool.and_self, if_pos, Except.ok.injEq] at hp
    have hva := hexVal_lt_of_hex hhexa
    have hvb := hexVal_lt_of_hex hhexb
    rw [formatPos_eq]
    have e1 : v % 256 / 16 = hexVal a := by omega
    have e2 : v % 16 = hexVal b := by omega
    rw [e1, e2, hexDigitChar_hexVal ha, hexDigitChar_hexVal hb]

theorem formatPos_lowercase_inverse_witness :
    ((48 ≤ 48 ∧ 48 ≤ 57) ∨ (97 ≤ 48 ∧ 48 ≤ 102)) ∧
    parsePos [48, 97] = .ok 10 ∧ formatPos 10 = [48, 97] :=
  ⟨Or.inl (by decide), by decide,
    formatPos_lowercase_inverse.2 48 97 10 (Or.inl (by decide)) (Or.inr (by decide)) (by decide)⟩

/-- C8: grid coordinates order row-major: for in-range inputs,
`from_pos(c1, r1) < from_pos(c2, r2)` iff `r1 < r2`, or `r1 = r2` and
`c1 < c2`; in particular `from_pos(0,1) < from_pos(15,1) < from_pos(0,2)`. -/
theorem fromPos_row_major_order (c1 r1 c2 r2 : Nat)
    (h1 : c1 < 16) (h2 : r1 < 16) (h3 : c2 < 16) (h4 : r2 < 16) :
    (fromPos c1 r1 < fromPos c2 r2 ↔ (r1 < r2 ∨ (r1 = r2 ∧ c1 < c2))) ∧
    fromPos 0 1 < fromPos 15 1 ∧ fromPos 15 1 < fromPos 0 2 := by
  rw [fromPos_eq_of_lt _ h1 _ h2, fromPos_eq_of_lt _ h3 _ h4]
  refine ⟨?_, by decide, by decide⟩
  omega

theorem fromPos_row_major_order_witness :
    ((fromPos 0 1 < fromPos 15 1 ↔ (1 < 1 ∨ (1 = 1 ∧ 0 < 15))) ∧
      fromPos 0 1 < fromPos 15 1 ∧ fromPos 15 1 < fromPos 0 2) :=
  fromPos_row_major_order 0 1 15 1 (by decide) (by decide) (by decide) (by decide)

/-- C10 counterexample: the claim's example is wrong: `from_pos(16, 1)` is
`(1 << 4) | 16 = 16`, while `from_pos(0, 2)` is `32`, so they are not equal
(the colliding pair is `from_pos(16, 1) = from_pos(0, 1)` instead). -/
theorem fromPos_16_1_ne_0_2_cex :
    fromPos 16 1 = 16 ∧ fromPos 0 2 = 32 ∧ fromPos 16 1 ≠ fromPos 0 2 := by decide

/-- C10 amended: from_pos performs no range validation and distinct
out-of-range inputs collide — e.g. `from_pos(16, 0) = from_pos(0, 1)` (an
out-of-range column silently corrupts the row) — while on inputs restricted
to `[0,16)` it is injective. -/
theorem fromPos_collision_inj_on_range (x1 y1 x2 y2 : Nat)
    (h1 : x1 < 16) (h2 : y1 < 16) (h3 : x2 < 16) (h4 : y2 < 16) :
    fromPos 16 0 = fromPos 0 1 ∧ ((16, 0) : Nat × Nat) ≠ (0, 1) ∧
    (fromPos x1 y1 = fromPos x2 y2 → x1 = x2 ∧ y1 = y2) := by
  refine ⟨by decide, by decide, fun h => ?_⟩
  rw [fromPos_eq_of_lt _ h1 _ h2, fromPos_eq_of_lt _ h3 _ h4] at h
  omega

theorem fromPos_collision_inj_on_range_witness :
    fromPos 16 0 = fromPos 0 1 ∧ ((16, 0) : Nat × Nat) ≠ (0, 1) ∧
    (fromPos 3 4 = fromPos 3 4 → 3 = 3 ∧ 4 = 4) :=
  fromPos_collision_inj_on_range 3 4 3 4 (by decide) (by decide) (by decide) (by decide)

/-! Output path layout computed in `main`.  Paths are modelled as lists of
components; `pathJoin` models `PathBuf::join` with a single-component
(separator-free) name, which is how `main` uses it. -/

def pathJoin (p : List String) (s : String) : List String := p ++ [s]

/-- `opt.toml.parent().join("src").join("main").join("resources")`. -/
def resDir (parent : List String) : List String :=
  pathJoin (pathJoin (pathJoin parent "src") "main") "resources"

/-- `res.join("assets").join(toml.modid)`. -/
def namespaceDir (parent : List String) (modid : String) : List String :=
  pathJoin (pathJoin (resDir parent) "assets") modid

/-- `namespace.join("textures")`. -/
def texturesDir (parent : List String) (modid : String) : List String :=
  pathJoin (namespaceDir parent modid) "textures"

/-- `namespace.join("models").join("block")`. -/
def modelsDir (parent : List String) (modid : String) : List String :=
  pathJoin (pathJoin (namespaceDir parent modid) "models") "block"

/-- `textures.join("gui")`. -/
def guisDir (parent : List String) (modid : String) : List String :=
  pathJoin (texturesDir parent modid) "gui"

/-- `textures.join("block")`. -/
def blocksDir (parent : List String) (modid : String) : List String :=
  pathJoin (texturesDir parent modid) "block"

/-- `textures.join("item")`. -/
def itemsDir (parent : List String) (modid : String) : List String :=
  pathJoin (texturesDir parent modid) "item"

/-- Destination of the banner copy: `File::create(res.join(toml.banner))`. -/
def bannerDest (parent : List String) (banner : String) : List String :=
  pathJoin (resDir parent) banner

/-- C5 counterexample: at a concrete run the banner is written to
`<parent>/src/main/resources/<banner>`, which is not the claimed
`<parent>/src/main/resources/assets/<modid>/<banner>`. -/
theorem banner_not_in_namespace_cex :
    bannerDest ["proj"] "banner.png" = ["proj", "src", "main", "resources", "banner.png"] ∧
    pathJoin (namespaceDir ["proj"] "mymod") "banner.png" =
      ["proj", "src", "main", "resources", "assets", "mymod", "banner.png"] ∧
    bannerDest ["proj"] "banner.png" ≠ pathJoin (namespaceDir ["proj"] "mymod") "banner.png" := by
  refine ⟨rfl, rfl, ?_⟩
  decide

/-- C5 amended: the Run Driver writes the banner file to
`src/main/resources/<banner file>` relative to the mapping file's parent
directory — directly at the resources root, not inside the mod's
`assets/<modid>` namespace directory. -/
theorem bannerDest_resources_root (parent : List String) (modid banner : String) :
    bannerDest parent banner = parent ++ ["src", "main", "resources", banner] ∧
    bannerDest parent banner ≠ pathJoin (namespaceDir parent modid) banner := by
  constructor
  · simp [bannerDest, resDir, pathJoin]
  · intro h
    have hlen := congrArg List.length h
    simp [bannerDest, resDir, namespaceDir, pathJoin] at hlen

/-! Archive multiplexer (`Zips`).  An opened archive is modelled as an
association list from internal entry name to byte content; `lookupZ` models
`ZipArchive::by_name` (first entry with the exact name), and `zipsFind`
models `Zips::find`. -/

abbrev ZArchive : Type := List (String × List Nat)

/-- Model of `zip.by_name(name)`: the first entry with exactly that name. -/
def lookupZ (z : ZArchive) (n : String) : Option (List Nat) :=
  match z with
  | [] => none
  | e :: t => if e.1 = n then some e.2 else lookupZ t n

/-- The inner loop of `Zips::find`: try each path of one archive in order. -/
def findInPaths (z : ZArchive) (paths : List String) (file : String) : Option (List Nat) :=
  match paths with
  | [] => none
  | p :: rest =>
    match lookupZ z (p ++ "/" ++ file) with
    | some c => some c
    | none => findInPaths z rest file

/-- Model of `Zips::find`: for each `(zip, paths)` pair in order, for each
path in order, look up `path/file`; first hit wins, else `None`. -/
def zipsFind (zips : List (ZArchive × List String)) (file : String) : Option (List Nat) :=
  match zips with
  | [] => none
  | (z, paths) :: rest =>
    match findInPaths z paths file with
    | some c => some c
    | none => zipsFind rest file

theorem findInPaths_eq (z : ZArchive) (paths : List String) (file : String) :
    findInPaths z paths file = paths.findSome? (fun p => lookupZ z (p ++ "/" ++ file)) := by
  induction paths with
  | nil => rfl
  | cons p rest ih =>
    simp only [findInPaths, List.findSome?_cons]
    cases lookupZ z (p ++ "/" ++ file) <;> simp [ih]

theorem findSome?_append_first {α β : Type} (f : α → Option β) (l1 l2 : List α) :
    (l1 ++ l2).findSome? f =
      match l1.findSome? f with
      | some b => some b
      | none => l2.findSome? f := by
  induction l1 with
  | nil => simp
  | cons a t ih =>
    simp only [List.cons_append, List.findSome?_cons]
    cases f a <;> simp [ih]

theorem findSome?_map_pair {α β γ : Type} (g : α → β) (f : β → Option γ) (l : List α) :
    (l.map g).findSome? f = l.findSome? (fun a => f (g a)) := by
  induction l with
  | nil => rfl
  | cons a t ih =>
    simp only [List.map_cons, List.findSome?_cons]
    cases f (g a) <;> simp [ih]

/-- C1: `find` tries, for each archive in the multiplexer's order and for
each of that archive's path prefixes in order, the entry `path/file`, and
returns the first match: it equals a first-some scan of the flattened
(archive, path) pair list; it is `None` exactly when no pair contains the
entry; and when an earlier archive A already resolves the name, the result is
A's content no matter what a later archive B holds. -/
theorem zipsFind_first_match (zips : List (ZArchive × List String)) (file : String) :
    zipsFind zips file =
      (zips.flatMap (fun zp => zp.2.map (fun p => (zp.1, p)))).findSome?
        (fun ap => lookupZ ap.1 (ap.2 ++ "/" ++ file)) ∧
    (zipsFind zips file = none ↔
      ∀ zp ∈ zips, ∀ p ∈ zp.2, lookupZ zp.1 (p ++ "/" ++ file) = none) ∧
    (∀ (A : ZArchive) (psA : List String) (B : ZArchive) (psB : List String)
      (rest : List (ZArchive × List String)) (c : List Nat),
      findInPaths A psA file = some c →
      zipsFind ((A, psA) :: (B, psB) :: rest) file = some c) := by
  have hmain : ∀ zs : List (ZArchive × List String),
      zipsFind zs file =
        (zs.flatMap (fun zp => zp.2.map (fun p => (zp.1, p)))).findSome?
          (fun ap => lookupZ ap.1 (ap.2 ++ "/" ++ file)) := by
    intro zs
    induction zs with
    | nil => rfl
    | cons zp rest ih =>
      obtain ⟨z, paths⟩ := zp
      simp only [zipsFind, List.flatMap_cons]
      rw [findSome?_append_first, findSome?_map_pair]
      rw [findInPaths_eq]
      cases paths.findSome? (fun p => lookupZ z (p ++ "/" ++ file)) <;> simp [ih]
  refine ⟨hmain zips, ?_, ?_⟩
  · rw [hmain zips, List.findSome?_eq_none_iff]
    constructor
    · intro h zp hzp p hp
      exact h (zp.1, p) (by simp only [List.mem_flatMap]; exact ⟨zp, hzp, by simp [hp]⟩)
    · intro h ap hap
      simp only [List.mem_flatMap, List.mem_map] at hap
      obtain ⟨zp, hzp, p, hp, rfl⟩ := hap
      exact h zp hzp p hp
  · intro A psA B psB rest c h
    simp [zipsFind, h]

theorem zipsFind_first_match_witness :
    findInPaths [("foo/bar.png", [1])] ["foo"] "bar.png" = some [1] ∧
    zipsFind [([("foo/bar.png", [1])], ["foo"]),
              ([("foo/bar.png", [2])], ["foo"])] "bar.png" = some [1] :=
  ⟨by decide,
    (zipsFind_first_match [] "bar.png").2.2 [("foo/bar.png", [1])] ["foo"]
      [("foo/bar.png", [2])] ["foo"] [] [1] (by decide)⟩

/-! Atlas slicer (`process_atlas`).  A decoded RGBA image is modelled as its
dimensions plus a pixel function; an `Atlas` (`BTreeMap<AtlasPos, String>`)
is modelled as an association list from the packed coordinate byte to the
output base name. -/

structure Img where
  width : Nat
  height : Nat
  pix : Nat → Nat → Nat

inductive SliceErr where
  | outOfBounds : SliceErr
deriving DecidableEq

/-- Modelled from the image library (not repository code):
`image.view(x, y, w, h).to_image()` panics when the requested rectangle
exceeds the image bounds (either through the view assertion or through the
per-pixel bounds check of `get_pixel`), and otherwise yields the `w`×`h`
sub-image whose pixel `(i, j)` is the source pixel `(x+i, y+j)`.  The panic
is modelled as an `outOfBounds` error. -/
def viewCrop (img : Img) (x y w h : Nat) : Except SliceErr Img :=
  if x + w ≤ img.width ∧ y + h ≤ img.height then
    .ok ⟨w, h, fun i j => img.pix (x + i) (y + j)⟩
  else
    .error .outOfBounds

/-- Model of `atlas.get(&slice)` on the `BTreeMap<AtlasPos, String>`. -/
def lookupA (atlas : List (Nat × String)) (p : Nat) : Option String :=
  match atlas with
  | [] => none
  | e :: t => if e.1 = p then some e.2 else lookupA t p

/-- Rust `Path::with_extension("png")` on a file name: the portion before the
last `.` (the whole name when there is no `.`, or when the name starts with
`.` and has no other `.`), with `.png` appended.  `stemAux` returns the
characters before the last dot when one exists. -/
def stemAux : List Char → Option (List Char)
  | [] => none
  | c :: t =>
    match stemAux t with
    | some s => some (c :: s)
    | none => if c = '.' then some [] else none

def stemPng : List Char → List Char
  | '.' :: t =>
    (match stemAux t with
     | some s => '.' :: s
     | none => '.' :: t)
  | cs =>
    (match stemAux cs with
     | some s => s
     | none => cs)

def withExtPng (s : String) : String := ⟨stemPng s.data ++ ['.', 'p', 'n', 'g']⟩

/-- One iteration step of the nested loops of `process_atlas`, run over an
explicit list of `(x, y)` cells: a mapped cell crops
`view(x * 16, y * 16, 16, 16)` and appends the write
`(output_dir.join(name).with_extension("png"), crop)`; `?` propagates the
error. -/
def runCells (atlas : List (Nat × String)) (img : Img) (outDir : List String) :
    List (Nat × Nat) → List (List String × Img) → Except SliceErr (List (List String × Img))
  | [], acc => .ok acc
  | c :: rest, acc =>
    match lookupA atlas (fromPos c.1 c.2) with
    | none => runCells atlas img outDir rest acc
    | some name =>
      match viewCrop img (c.1 * 16) (c.2 * 16) 16 16 with
      | .error e => .error e
      | .ok cr =>
        runCells atlas img outDir rest (acc ++ [(pathJoin outDir (withExtPng name), cr)])

/-- The cell visit order of `process_atlas`: `for y in 0..16 { for x in 0..16`. -/
def cellOrder : List (Nat × Nat) :=
  (List.range 16).flatMap (fun y => (List.range 16).map (fun x => (x, y)))

/-- Model of `process_atlas` on a decoded image: visit all 256 cells in row
order and collect the written files. -/
def processAtlas (atlas : List (Nat × String)) (img : Img) (outDir : List String) :
    Except SliceErr (List (List String × Img)) :=
  runCells atlas img outDir cellOrder []

/-- The write a mapped cell produces. -/
def cellWrite (atlas : List (Nat × String)) (img : Img) (outDir : List String)
    (c : Nat × Nat) : Option (List String × Img) :=
  (lookupA atlas (fromPos c.1 c.2)).map (fun name =>
    (pathJoin outDir (withExtPng name),
     Img.mk 16 16 (fun i j => img.pix (c.1 * 16 + i) (c.2 * 16 + j))))

theorem runCells_ok {atlas : List (Nat × String)} {img : Img} {outDir : List String} :
    ∀ (cells : List (Nat × Nat)) (acc : List (List String × Img)),
      (∀ c ∈ cells, c.1 * 16 + 16 ≤ img.width ∧ c.2 * 16 + 16 ≤ img.height) →
      runCells atlas img outDir cells acc =
        .ok (acc ++ cells.filterMap (cellWrite atlas img outDir)) := by
  intro cells
  induction cells with
  | nil => intro acc _; simp [runCells]
  | cons c rest ih =>
    intro acc hin
    have hc := hin c (List.mem_cons_self _ _)
    have hrest : ∀ c ∈ rest, c.1 * 16 + 16 ≤ img.width ∧ c.2 * 16 + 16 ≤ img.height :=
      fun c hc => hin c (List.mem_cons_of_mem _ hc)
    simp only [runCells, List.filterMap_cons, cellWrite]
    cases hl : lookupA atlas (fromPos c.1 c.2) with
    | none => simp [hl, ih _ hrest]
    | some name =>
      have hv : viewCrop img (c.1 * 16) (c.2 * 16) 16 16 =
          .ok ⟨16, 16, fun i j => img.pix (c.1 * 16 + i) (c.2 * 16 + j)⟩ := by
        simp only [viewCrop]
        rw [if_pos ⟨hc.1, hc.2⟩]
      simp [hl, hv, ih _ hrest]

theorem runCells_ok_inbounds {atlas : List (Nat × String)} {img : Img}
    {outDir : List String} :
    ∀ (cells : List (Nat × Nat)) (acc ws : List (List String × Img)),
      runCells atlas img outDir cells acc = .ok ws →
      ∀ c ∈ cells, (lookupA atlas (fromPos c.1 c.2)).isSome →
        c.1 * 16 + 16 ≤ img.width ∧ c.2 * 16 + 16 ≤ img.height := by
  intro cells
  induction cells with
  | nil => intro acc ws _ c hc; simp at hc
  | cons c0 rest ih =>
    intro acc ws hok c hc hsome
    simp only [runCells] at hok
    rcases List.mem_cons.mp hc with rfl | hc
    · cases hl : lookupA atlas (fromPos c.1 c.2) with
      | none => rw [hl] at hsome; simp at hsome
      | some name =>
        rw [hl] at hok
        cases hv : viewCrop img (c.1 * 16) (c.2 * 16) 16 16 with
        | error e => rw [hv] at hok; exact absurd hok (by simp)
        | ok cr =>
          simp only [viewCrop] at hv
          split at hv
          · rename_i hcond; exact hcond
          · exact absurd hv (by simp)
    · cases hl : lookupA atlas (fromPos c0.1 c0.2) with
      | none =>
        rw [hl] at hok
        exact ih _ _ hok c hc hsome
      | some name =>
        rw [hl] at hok
        cases hv : viewCrop img (c0.1 * 16) (c0.2 * 16) 16 16 with
        | error e => rw [hv] at hok; exact absurd hok (by simp)
        | ok cr =>
          rw [hv] at hok
          exact ih _ _ hok c hc hsome

theorem lookupA_eq_none_of_not_mem {k : Nat} :
    ∀ {l : List (Nat × String)}, k ∉ l.map Prod.fst → lookupA l k = none := by
  intro l
  induction l with
  | nil => intro _; rfl
  | cons e t ih =>
    intro h
    simp only [List.map_cons, List.mem_cons, not_or] at h
    simp only [lookupA]
    rw [if_neg (fun hh => h.1 hh.symm), ih h.2]

theorem lookupA_isSome_of_mem {k : Nat} :
    ∀ {l : List (Nat × String)}, k ∈ l.map Prod.fst → (lookupA l k).isSome := by
  intro l
  induction l with
  | nil => intro h; simp at h
  | cons e t ih =>
    intro h
    simp only [lookupA]
    by_cases he : e.1 = k
    · rw [if_pos he]; rfl
    · rw [if_neg he]
      simp only [List.map_cons, List.mem_cons] at h
      rcases h with h | h
      · exact absurd h.symm he
      · exact ih h

theorem filterMap_update_perm {β : Type} {f g : Nat → Option β} {k : Nat} {b : β}
    (hne : ∀ p, p ≠ k → f p = g p) (hfk : f k = some b) (hgk : g k = none) :
    ∀ L : List Nat, L.Nodup → k ∈ L → (L.filterMap f).Perm (b :: L.filterMap g) := by
  intro L
  induction L with
  | nil => intro _ h; simp at h
  | cons a L' ih =>
    intro hnd hk
    rw [List.nodup_cons] at hnd
    by_cases hak : a = k
    · subst hak
      have hcong : L'.filterMap f = L'.filterMap g :=
        List.filterMap_congr (fun p hp => hne p (fun h => hnd.1 (h ▸ hp)))
      simp only [List.filterMap_cons, hfk, hgk, hcong]
      exact List.Perm.refl _
    · have hk' : k ∈ L' := by
        rcases List.mem_cons.mp hk with h | h
        · exact absurd h.symm hak
        · exact h
      have hfa : f a = g a := hne a hak
      have hperm := ih hnd.2 hk'
      cases hga : g a with
      | none =>
        simp only [List.filterMap_cons, hfa, hga]
        exact hperm
      | some w =>
        simp only [List.filterMap_cons, hfa, hga]
        exact (hperm.cons w).trans (List.Perm.swap b w _)

theorem filterMap_range_lookup_perm {β : Type} (G : Nat → String → β) (n : Nat) :
    ∀ l : List (Nat × String), (l.map Prod.fst).Nodup →
      (∀ p ∈ l.map Prod.fst, p < n) →
      ((List.range n).filterMap (fun p => (lookupA l p).map (G p))).Perm
        (l.map (fun e => G e.1 e.2)) := by
  intro l
  induction l with
  | nil =>
    intro _ _
    simp [lookupA]
  | cons e t ih =>
    intro hnd hb
    simp only [List.map_cons, List.nodup_cons] at hnd
    have hbt : ∀ p ∈ t.map Prod.fst, p < n :=
      fun p hp => hb p (by simp only [List.map_cons, List.mem_cons]; exact Or.inr hp)
    have hen : e.1 < n := hb e.1 (by simp)
    have hstep : ((List.range n).filterMap (fun p => (lookupA (e :: t) p).map (G p))).Perm
        (G e.1 e.2 :: (List.range n).filterMap (fun p => (lookupA t p).map (G p))) := by
      refine filterMap_update_perm ?_ ?_ ?_ (List.range n) (List.nodup_range n)
        (List.mem_range.mpr hen)
      · intro p hp
        simp only [lookupA]
        rw [if_neg (fun h => hp h.symm)]
      · simp [lookupA]
      · exact Option.map_eq_none.mpr (lookupA_eq_none_of_not_mem hnd.1)
    exact hstep.trans ((ih hnd.2 hbt).cons _)

/-- C2: on a decoded source image at least 256×256 and a sparse mapping (a
finite map: distinct `u8` keys), the slicer succeeds and its writes are
exactly one 16×16 output per mapped coordinate and no others: the write list
is a permutation of the mapping's entries, each cropping the 16×16 square at
`(column*16, row*16)` and named `name` with the png extension under the
output directory; no cell is processed more than once. -/
theorem processAtlas_exact_writes (atlas : List (Nat × String)) (img : Img)
    (outDir : List String)
    (hnd : (atlas.map Prod.fst).Nodup) (hkeys : ∀ p ∈ atlas.map Prod.fst, p < 256)
    (hw : 256 ≤ img.width) (hh : 256 ≤ img.height) :
    ∃ ws, processAtlas atlas img outDir = .ok ws ∧
      ws.Perm (atlas.map (fun e =>
        (pathJoin outDir (withExtPng e.2),
         Img.mk 16 16 (fun i j => img.pix (e.1 % 16 * 16 + i) (e.1 / 16 * 16 + j))))) := by
  have hcells : ∀ c ∈ cellOrder, c.1 < 16 ∧ c.2 < 16 := by decide
  have hin : ∀ c ∈ cellOrder, c.1 * 16 + 16 ≤ img.width ∧ c.2 * 16 + 16 ≤ img.height := by
    intro c hc
    have h := hcells c hc
    constructor
    · calc c.1 * 16 + 16 ≤ 256 := by omega
        _ ≤ img.width := hw
    · calc c.2 * 16 + 16 ≤ 256 := by omega
        _ ≤ img.height := hh
  refine ⟨cellOrder.filterMap (cellWrite atlas img outDir), ?_, ?_⟩
  · show runCells atlas img outDir cellOrder [] = _
    rw [runCells_ok cellOrder [] hin]
    simp
  · have hco : cellOrder = (List.range 256).map (fun p => (p % 16, p / 16)) := by decide
    rw [hco, List.filterMap_map]
    have hfp : ∀ p < 256, fromPos (p % 16) (p / 16) = p := by decide
    have hcong : (List.range 256).filterMap
          ((cellWrite atlas img outDir) ∘ (fun p => (p % 16, p / 16))) =
        (List.range 256).filterMap (fun p => (lookupA atlas p).map (fun name =>
          (pathJoin outDir (withExtPng name),
           Img.mk 16 16 (fun i j => img.pix (p % 16 * 16 + i) (p / 16 * 16 + j))))) := by
      apply List.filterMap_congr
      intro p hp
      have hp256 := List.mem_range.mp hp
      simp only [Function.comp, cellWrite, hfp p hp256]
    rw [hcong]
    exact filterMap_range_lookup_perm
      (fun p name => (pathJoin outDir (withExtPng name),
        Img.mk 16 16 (fun i j => img.pix (p % 16 * 16 + i) (p / 16 * 16 + j))))
      256 atlas hnd hkeys

theorem processAtlas_exact_writes_witness :
    (([(0, "origin"), (255, "corner")] : List (Nat × String)).map Prod.fst).Nodup ∧
    (∀ p ∈ ([(0, "origin"), (255, "corner")] : List (Nat × String)).map Prod.fst, p < 256) ∧
    (∃ ws, processAtlas [(0, "origin"), (255, "corner")]
        (Img.mk 256 256 (fun _ _ => 0)) [] = .ok ws ∧
      ws.Perm (([(0, "origin"), (255, "corner")] : List (Nat × String)).map (fun e =>
        (pathJoin [] (withExtPng e.2),
         Img.mk 16 16 (fun i j =>
           (Img.mk 256 256 (fun _ _ => 0)).pix (e.1 % 16 * 16 + i) (e.1 / 16 * 16 + j)))))) :=
  ⟨by decide, by decide,
    processAtlas_exact_writes [(0, "origin"), (255, "corner")]
      (Img.mk 256 256 (fun _ _ => 0)) [] (by decide) (by decide) (by decide) (by decide)⟩

/-- C4: when the mapping references a coordinate whose 16×16 cell falls
outside the bounds of a source image smaller than 256×256, the slicer fails
with the out-of-bounds error instead of silently clipping or wrapping. -/
theorem processAtlas_outOfBounds (atlas : List (Nat × String)) (img : Img)
    (outDir : List String) (p : Nat)
    (hp : p ∈ atlas.map Prod.fst) (hp256 : p < 256)
    (hsw : img.width < 256) (hsh : img.height < 256)
    (hout : img.width < p % 16 * 16 + 16 ∨ img.height < p / 16 * 16 + 16) :
    processAtlas atlas img outDir = .error .outOfBounds := by
  cases hres : processAtlas atlas img outDir with
  | ok ws =>
    exfalso
    have hmem : ((p % 16, p / 16) : Nat × Nat) ∈ cellOrder := by
      have hco : cellOrder = (List.range 256).map (fun q => (q % 16, q / 16)) := by decide
      rw [hco]
      exact List.mem_map.mpr ⟨p, List.mem_range.mpr hp256, rfl⟩
    have hfp : ∀ q < 256, fromPos (q % 16) (q / 16) = q := by decide
    have hsome : (lookupA atlas (fromPos (p % 16) (p / 16))).isSome := by
      rw [hfp p hp256]
      exact lookupA_isSome_of_mem hp
    have hbounds := runCells_ok_inbounds cellOrder [] ws hres (p % 16, p / 16) hmem hsome
    rcases hout with hout | hout
    · exact absurd hbounds.1 (by omega)
    · exact absurd hbounds.2 (by omega)
  | error e =>
    cases e
    rfl

theorem processAtlas_outOfBounds_witness :
    (255 ∈ ([(255, "corner")] : List (Nat × String)).map Prod.fst) ∧ 255 < 256 ∧
    (Img.mk 128 128 (fun _ _ => 0)).width < 256 ∧
    (Img.mk 128 128 (fun _ _ => 0)).height < 256 ∧
    ((Img.mk 128 128 (fun _ _ => 0)).width < 255 % 16 * 16 + 16 ∨
      (Img.mk 128 128 (fun _ _ => 0)).height < 255 / 16 * 16 + 16) ∧
    processAtlas [(255, "corner")] (Img.mk 128 128 (fun _ _ => 0)) [] =
      .error .outOfBounds :=
  ⟨by decide, by decide, by decide, by decide, Or.inl (by decide),
    processAtlas_outOfBounds [(255, "corner")] (Img.mk 128 128 (fun _ _ => 0)) [] 255
      (by decide) (by decide) (by decide) (by decide) (Or.inl (by decide))⟩

/-! The `Folders` table (`BTreeMap<String, Vec<String>>`): deserialization
inserts the entries of the toml file one by one into a sorted map.  The map
is modelled as a sorted association list; `insertB` is ordered insertion with
replacement on an equal key, and `btreeOfList` folds the file's entries into
the empty map. -/

def insertB (k : String) (v : List String) :
    List (String × List String) → List (String × List String)
  | [] => [(k, v)]
  | e :: t =>
    if k < e.1 then (k, v) :: e :: t
    else if k = e.1 then (k, v) :: t
    else e :: insertB k v t

/-- Building the `BTreeMap`-backed `Folders` from the file's entry list. -/
def btreeOfList (raw : List (String × List String)) : List (String × List String) :=
  raw.foldl (fun m e => insertB e.1 e.2 m) []

/-- Model of `Zips::new`: open each named archive, in the order of the
`Folders` map, keeping its path list.  `fs` abstracts the content of the
archive files in the input directory. -/
def zipsNew (fs : String → ZArchive) (folders : List (String × List String)) :
    List (ZArchive × List String) :=
  folders.map (fun e => (fs e.1, e.2))

theorem mem_insertB {x : String × List String} {k : String} {v : List String} :
    ∀ {m : List (String × List String)}, x ∈ insertB k v m → x = (k, v) ∨ x ∈ m := by
  intro m
  induction m with
  | nil => intro h; simpa [insertB] using h
  | cons e t ih =>
    intro h
    simp only [insertB] at h
    split at h
    · simpa using h
    · split at h
      · rcases List.mem_cons.mp h with h | h
        · exact Or.inl h
        · exact Or.inr (List.mem_cons_of_mem _ h)
      · rcases List.mem_cons.mp h with h | h
        · exact Or.inr (h ▸ List.mem_cons_self _ _)
        · rcases ih h with h' | h'
          · exact Or.inl h'
          · exact Or.inr (List.mem_cons_of_mem _ h')

theorem mem_insertB_self (k : String) (v : List String) :
    ∀ m : List (String × List String), (k, v) ∈ insertB k v m := by
  intro m
  induction m with
  | nil => simp [insertB]
  | cons e t ih =>
    simp only [insertB]
    split
    · exact List.mem_cons_self _ _
    · split
      · exact List.mem_cons_self _ _
      · exact List.mem_cons_of_mem _ ih

theorem mem_insertB_of_ne {x : String × List String} {k : String} {v : List String}
    (hx : x.1 ≠ k) : ∀ {m : List (String × List String)}, x ∈ m → x ∈ insertB k v m := by
  intro m
  induction m with
  | nil => intro h; simp at h
  | cons e t ih =>
    intro h
    simp only [insertB]
    split
    · exact List.mem_cons_of_mem _ h
    · rename_i hlt
      split
      · rename_i hkeq
        rcases List.mem_cons.mp h with h | h
        · exact absurd (by rw [h, ← hkeq] : x.1 = k) hx
        · exact List.mem_cons_of_mem _ h
      · rcases List.mem_cons.mp h with h | h
        · exact h ▸ List.mem_cons_self _ _
        · exact List.mem_cons_of_mem _ (ih h)

theorem insertB_sorted {k : String} {v : List String} :
    ∀ {m : List (String × List String)},
      m.Pairwise (fun a b => a.1 < b.1) → (insertB k v m).Pairwise (fun a b => a.1 < b.1) := by
  intro m
  induction m with
  | nil => intro _; simp [insertB]
  | cons e t ih =>
    intro hp
    rw [List.pairwise_cons] at hp
    obtain ⟨he, ht⟩ := hp
    simp only [insertB]
    split
    · rename_i hlt
      rw [List.pairwise_cons]
      refine ⟨?_, List.pairwise_cons.mpr ⟨he, ht⟩⟩
      intro b hb
      rcases List.mem_cons.mp hb with hb | hb
      · exact hb ▸ hlt
      · exact lt_trans hlt (he b hb)
    · rename_i hlt
      split
      · rename_i heq
        rw [List.pairwise_cons]
        exact ⟨fun b hb => heq ▸ he b hb, ht⟩
      · rename_i heq
        have hgt : e.1 < k := by
          rcases lt_trichotomy k e.1 with h | h | h
          · exact absurd h hlt
          · exact absurd h heq
          · exact h
        rw [List.pairwise_cons]
        refine ⟨?_, ih ht⟩
        intro b hb
        rcases mem_insertB hb with rfl | hb
        · exact hgt
        · exact he b hb

theorem btreeOfList_aux_sorted (raw : List (String × List String)) :
    ∀ acc : List (String × List String), acc.Pairwise (fun a b => a.1 < b.1) →
      (raw.foldl (fun m e => insertB e.1 e.2 m) acc).Pairwise (fun a b => a.1 < b.1) := by
  induction raw with
  | nil => intro acc h; simpa using h
  | cons e t ih =>
    intro acc h
    exact ih _ (insertB_sorted h)

theorem btreeOfList_sorted (raw : List (String × List String)) :
    (btreeOfList raw).Pairwise (fun a b => a.1 < b.1) :=
  btreeOfList_aux_sorted raw [] (by simp)

theorem mem_foldl_insert_of_acc {x : String × List String} :
    ∀ (raw : List (String × List String)) (acc : List (String × List String)),
      x ∈ acc → x.1 ∉ raw.map Prod.fst →
      x ∈ raw.foldl (fun m e => insertB e.1 e.2 m) acc := by
  intro raw
  induction raw with
  | nil => intro acc h _; simpa using h
  | cons e t ih =>
    intro acc hacc hkey
    simp only [List.map_cons, List.mem_cons, not_or] at hkey
    exact ih _ (mem_insertB_of_ne hkey.1 hacc) hkey.2

theorem mem_btreeOfList_of_mem {x : String × List String} :
    ∀ {raw : List (String × List String)}, (raw.map Prod.fst).Nodup → x ∈ raw →
      x ∈ btreeOfList raw := by
  have haux : ∀ (raw : List (String × List String)) (acc : List (String × List String)),
      (raw.map Prod.fst).Nodup → x ∈ raw →
      x ∈ raw.foldl (fun m e => insertB e.1 e.2 m) acc := by
    intro raw
    induction raw with
    | nil => intro acc _ h; simp at h
    | cons e t ih =>
      intro acc hnd hx
      simp only [List.map_cons, List.nodup_cons] at hnd
      rcases List.mem_cons.mp hx with rfl | hx
      · exact mem_foldl_insert_of_acc t _ (mem_insertB_self x.1 x.2 acc) hnd.1
      · exact ih _ hnd.2 hx
  intro raw hnd hx
  exact haux raw [] hnd hx

theorem mem_of_mem_btreeOfList {x : String × List String} :
    ∀ {raw : List (String × List String)}, x ∈ btreeOfList raw → x ∈ raw := by
  have haux : ∀ (raw : List (String × List String)) (acc : List (String × List String)),
      x ∈ raw.foldl (fun m e => insertB e.1 e.2 m) acc → x ∈ acc ∨ x ∈ raw := by
    intro raw
    induction raw with
    | nil => intro acc h; exact Or.inl (by simpa using h)
    | cons e t ih =>
      intro acc h
      rcases ih _ h with h' | h'
      · rcases mem_insertB h' with rfl | h''
        · exact Or.inr (List.mem_cons_self _ _)
        · exact Or.inl h''
      · exact Or.inr (List.mem_cons_of_mem _ h')
  intro raw h
  rcases haux raw [] h with h' | h'
  · simp at h'
  · exact h'

theorem eq_of_sorted_same_mem :
    ∀ (l1 l2 : List (String × List String)),
      l1.Pairwise (fun a b => a.1 < b.1) → l2.Pairwise (fun a b => a.1 < b.1) →
      (∀ x, x ∈ l1 ↔ x ∈ l2) → l1 = l2 := by
  intro l1
  induction l1 with
  | nil =>
    intro l2 _ _ hmem
    cases l2 with
    | nil => rfl
    | cons b t2 => exact absurd ((hmem b).mpr (List.mem_cons_self _ _)) (by simp)
  | cons a t1 ih =>
    intro l2 h1 h2 hmem
    cases l2 with
    | nil => exact absurd ((hmem a).mp (List.mem_cons_self _ _)) (by simp)
    | cons b t2 =>
      rw [List.pairwise_cons] at h1 h2
      have hab : a = b := by
        rcases List.mem_cons.mp ((hmem a).mp (List.mem_cons_self _ _)) with h | h
        · exact h
        · rcases List.mem_cons.mp ((hmem b).mpr (List.mem_cons_self _ _)) with h' | h'
          · exact h'.symm
          · exact absurd (lt_trans (h2.1 a h) (h1.1 b h')) (lt_irrefl _)
      subst hab
      have htail : ∀ x, x ∈ t1 ↔ x ∈ t2 := by
        intro x
        constructor
        · intro hx
          rcases List.mem_cons.mp ((hmem x).mp (List.mem_cons_of_mem _ hx)) with h | h
          · exact absurd (h ▸ h1.1 x hx) (lt_irrefl _)
          · exact h
        · intro hx
          rcases List.mem_cons.mp ((hmem x).mpr (List.mem_cons_of_mem _ hx)) with h | h
          · exact absurd (h ▸ h2.1 x hx) (lt_irrefl _)
          · exact h
      rw [ih t2 h1.2 h2.2 htail]

/-- C9: the archives of the multiplexer are searched in ascending
lexicographic order of archive file name: the `Folders` map built from the
file's entries is sorted by key; with distinct names each entry (with its
path list unchanged, in written order) survives into the map; and the search
result of `find` is the same for any written order of the entries. -/
theorem find_searches_sorted_names (raw raw2 : List (String × List String))
    (fs : String → ZArchive) (file : String) :
    (btreeOfList raw).Pairwise (fun a b => a.1 < b.1) ∧
    ((raw.map Prod.fst).Nodup → ∀ e ∈ raw, e ∈ btreeOfList raw) ∧
    ((raw.map Prod.fst).Nodup → raw.Perm raw2 →
      zipsFind (zipsNew fs (btreeOfList raw)) file =
        zipsFind (zipsNew fs (btreeOfList raw2)) file) := by
  refine ⟨btreeOfList_sorted raw, ?_, ?_⟩
  · intro hnd e he
    exact mem_btreeOfList_of_mem hnd he
  · intro hnd hperm
    have hnd2 : (raw2.map Prod.fst).Nodup := (hperm.map Prod.fst).nodup_iff.mp hnd
    have heq : btreeOfList raw = btreeOfList raw2 := by
      refine eq_of_sorted_same_mem _ _ (btreeOfList_sorted raw) (btreeOfList_sorted raw2) ?_
      intro x
      constructor
      · intro hx
        exact mem_btreeOfList_of_mem hnd2 (hperm.mem_iff.mp (mem_of_mem_btreeOfList hx))
      · intro hx
        exact mem_btreeOfList_of_mem hnd (hperm.mem_iff.mpr (mem_of_mem_btreeOfList hx))
    rw [heq]

theorem find_searches_sorted_names_witness :
    (([("b", ["q"]), ("a", ["p"])] : List (String × List String)).map Prod.fst).Nodup ∧
    ([("b", ["q"]), ("a", ["p"])] : List (String × List String)).Perm
      [("a", ["p"]), ("b", ["q"])] ∧
    zipsFind (zipsNew (fun _ => ([] : ZArchive)) (btreeOfList [("b", ["q"]), ("a", ["p"])])) "f" =
      zipsFind (zipsNew (fun _ => ([] : ZArchive)) (btreeOfList [("a", ["p"]), ("b", ["q"])])) "f" :=
  ⟨by decide, by decide,
    (find_searches_sorted_names [("b", ["q"]), ("a", ["p"])] [("a", ["p"]), ("b", ["q"])]
      (fun _ => ([] : ZArchive)) "f").2.2 (by decide) (by decide)⟩
